import Mathlib

/-!
Verification of the Traversal repository: a shallow embedding of the graph
data model (graph.py), the Euler-path backtracking search (traverse.py) and
the Hopcroft-Tarjan articulation-point finder (HopcroftTarjan.py), together
with theorems settling the specification claims.

Python object identity is modelled by numeric `id` fields: distinct objects
carry distinct ids, so `is` / default `==` become structural equality.
Python `set` objects are duplicate-free lists, `dict` objects are
insertion-ordered association lists with unique keys, and `list` objects
that are mutated in place are modelled by a store of buffers where the
aliasing structure matters (the Euler search).  A raised exception is
modelled by `Option` (`none` = the call raised).
-/

set_option linter.unusedVariables false

namespace Traversal

/-- A graph node: `id` models Python object identity, `name` the node's name. -/
structure Node where
  id : Nat
  name : String
deriving DecidableEq, Repr

/-- A directed arc; `id` models object identity (parallel arcs stay distinct). -/
structure Arc where
  id : Nat
  start : Node
  finish : Node
deriving DecidableEq, Repr

/-- Lexicographic comparison of character lists by code point, the order
Python uses on strings. -/
def charsLt : List Char → List Char → Bool
  | [], [] => false
  | [], _ :: _ => true
  | _ :: _, [] => false
  | c :: cs, d :: ds => c.toNat < d.toNat || (c.toNat == d.toNat && charsLt cs ds)

/-- Python string `<`. -/
def strLt (s t : String) : Bool := charsLt s.data t.data

/-- Node.__lt__ from graph.py: `False` on the identical object, otherwise the
name order; two distinct instances with the same name raise KeyError,
modelled by `none`. -/
def Node.pyLt (a b : Node) : Option Bool :=
  if a = b then some false
  else if strLt a.name b.name then some true
  else if strLt b.name a.name then some false
  else none

/-- The sort order on nodes used by Python `sorted` (valid whenever distinct
nodes carry distinct names, the graph invariant): order by name. -/
def Node.leB (a b : Node) : Bool :=
  a == b || strLt a.name b.name

/-- Arc.__lt__ from graph.py as a total order: by start name, then finish
name, then object id (the tiebreak for parallel arcs). -/
def Arc.leB (a b : Arc) : Bool :=
  a == b ||
  strLt a.start.name b.start.name ||
  (a.start.name == b.start.name && strLt a.finish.name b.finish.name) ||
  (a.start.name == b.start.name && a.finish.name == b.finish.name &&
    decide (a.id < b.id))

def nodeOrd (a b : Node) : Prop := Node.leB a b = true

instance : DecidableRel nodeOrd := fun a b => by unfold nodeOrd; infer_instance

def arcOrd (a b : Arc) : Prop := Arc.leB a b = true

instance : DecidableRel arcOrd := fun a b => by unfold arcOrd; infer_instance

/-- Python `sorted` on a collection of nodes. -/
def sortNodes (l : List Node) : List Node := l.insertionSort nodeOrd

/-- Python `sorted` on a collection of arcs. -/
def sortArcs (l : List Arc) : List Arc := l.insertionSort arcOrd

/-- The argument accepted by addNode / removeNode: a name string or an
existing Node object. -/
inductive NodeSpec where
  | name (s : String)
  | node (n : Node)

/-- The Graph class: `nodes` is the `_nodes` dict (insertion ordered, unique
keys), `arcs` the `_arcs` set (duplicate-free list), `fresh` the supply of
object ids modelling Python allocation. -/
structure Graph where
  nodes : List (String × Node)
  arcs : List Arc
  fresh : Nat
deriving DecidableEq, Repr

/-- Python dict lookup `d.get(k)`. -/
def dictGet (l : List (String × Node)) (k : String) : Option Node :=
  (l.find? (fun p => p.1 == k)).map Prod.snd

/-- Python dict assignment `d[k] = v`: overwrite in place or append. -/
def dictSet (l : List (String × Node)) (k : String) (v : Node) :
    List (String × Node) :=
  if l.any (fun p => p.1 == k) then
    l.map (fun p => if p.1 == k then (k, v) else p)
  else l ++ [(k, v)]

/-- Python `del d[k]` (the caller checks presence; absent key raises). -/
def dictDel (l : List (String × Node)) (k : String) : List (String × Node) :=
  l.filter (fun p => !(p.1 == k))

/-- Graph.getNode: pure dict lookup. -/
def Graph.getNode (g : Graph) (name : String) : Option Node :=
  dictGet g.nodes name

/-- Graph.getNodes: sorted list of all nodes. -/
def Graph.getNodes (g : Graph) : List Node :=
  sortNodes (g.nodes.map Prod.snd)

/-- Graph.getArcs: sorted list of all arcs. -/
def Graph.getArcs (g : Graph) : List Arc :=
  sortArcs g.arcs

/-- Node.getArcsFrom: the node's outgoing-arc set, sorted.  The per-node
`_arcsFrom` set is recovered from the graph's arc set (the two are kept in
sync by every Graph operation). -/
def Graph.getArcsFrom (g : Graph) (n : Node) : List Arc :=
  sortArcs (g.arcs.filter (fun a => a.start == n))

/-- Node.getArcsTo: the node's incoming-arc set, sorted. -/
def Graph.getArcsTo (g : Graph) (n : Node) : List Arc :=
  sortArcs (g.arcs.filter (fun a => a.finish == n))

/-- Node.getNeighbors: collects the finish node of each outgoing arc into a
set (deduplicating parallel arcs) and returns the sorted list. -/
def Graph.getNeighbors (g : Graph) (n : Node) : List Node :=
  sortNodes ((g.arcs.filter (fun a => a.start == n)).map Arc.finish).dedup

/-- Graph.addNode: a string is looked up and created when absent
(createNode); a Node object is taken as is; either way the node is
(re)registered in the dict under its name and returned. -/
def Graph.addNode (g : Graph) (arg : NodeSpec) : Graph × Node :=
  match arg with
  | .name s =>
    match g.getNode s with
    | some node => ({ g with nodes := dictSet g.nodes node.name node }, node)
    | none =>
      let node : Node := ⟨g.fresh, s⟩
      ({ g with nodes := dictSet g.nodes node.name node,
                fresh := g.fresh + 1 }, node)
  | .node node => ({ g with nodes := dictSet g.nodes node.name node }, node)

/-- Graph.removeArc: `self._arcs.remove(arc)` raises KeyError when the arc
is not a member (`none`); the endpoint sets are derived so only the arc set
changes. -/
def Graph.removeArc (g : Graph) (arc : Arc) : Option Graph :=
  if arc ∈ g.arcs then some { g with arcs := g.arcs.erase arc } else none

/-- The body of Graph.removeNode once the argument is resolved to a node:
remove every outgoing arc, then every arc into the node as recomputed after
the first loop, then delete the dict entry (`del` raises when the key is
absent, and a failing `removeArc` propagates). -/
def Graph.removeNodeResolved (g : Graph) (node : Node) : Option Graph :=
  Option.bind ((g.getArcsFrom node).foldlM Graph.removeArc g) fun g1 =>
    Option.bind ((g1.getArcsTo node).foldlM Graph.removeArc g1) fun g2 =>
      if g2.nodes.any (fun p => p.1 == node.name) then
        some { g2 with nodes := dictDel g2.nodes node.name }
      else none

/-- Graph.removeNode: a name argument is looked up (a missing name raises
ValueError, `none`); a Node object is taken as is; then the node and all
its incident arcs are removed. -/
def Graph.removeNode (g : Graph) (arg : NodeSpec) : Option Graph :=
  match arg with
  | .name s =>
    match g.getNode s with
    | some node => g.removeNodeResolved node
    | none => none
  | .node n => g.removeNodeResolved n

/-- checkIfEuler from traverse.py: count the nodes with an odd number of
outgoing arcs and report failure when three or more exist. -/
def checkIfEuler (g : Graph) : Bool :=
  let i := (g.getNodes).countP (fun node => (g.getArcsFrom node).length % 2 == 1)
  if i ≥ 3 then false else true

/-- removeReverseArc from traverse.py: scan `unvisited` for the first arc
running opposite to `arc` and remove it (list mutation, returned as the new
list value; the graph argument is unused, as in the source). -/
def removeReverseArc (graph : Graph) (arc : Arc) (unvisited : List Arc) :
    List Arc :=
  match unvisited.find? (fun rev =>
      rev.start == arc.finish && rev.finish == arc.start) with
  | some rev => unvisited.erase rev
  | none => unvisited

/-- removeFullArc from traverse.py: remove the reverse arc first, then
`unvisited.remove(arc)`, which raises ValueError (`none`) when the arc is
no longer present. -/
def removeFullArc (graph : Graph) (arc : Arc) (unvisited : List Arc) :
    Option (List Arc) :=
  let u := removeReverseArc graph arc unvisited
  if arc ∈ u then some (u.erase arc) else none

/-- The mutable state of the Euler search: the graph object and a heap of
Python list buffers, addressed by index.  `unvisited.copy()` allocates a
fresh buffer; the path list is one shared buffer. -/
structure EState where
  graph : Graph
  bufs : List (List Arc)
deriving DecidableEq, Repr

/-- Read a buffer. -/
def EState.get (σ : EState) (i : Nat) : List Arc := σ.bufs.getD i []

/-- Overwrite a buffer in place. -/
def EState.set (σ : EState) (i : Nat) (l : List Arc) : EState :=
  ⟨σ.graph, σ.bufs.set i l⟩

/-- Allocate a fresh buffer holding `l`, returning its index. -/
def EState.alloc (σ : EState) (l : List Arc) : EState × Nat :=
  (⟨σ.graph, σ.bufs ++ [l]⟩, σ.bufs.length)

/-- The `for neighbor in start.getFinish().getArcsFrom()` loop of
traverseAll: each neighbor still in the unvisited buffer (index `u`) gets a
freshly allocated copy of that buffer and a recursive call; reported paths
are collected in order.  `recur j nb σ` stands for the recursive
`traverseAll` call on buffer `j`, arc `nb` and the shared path buffer. -/
def neighborLoop (recur : Nat → Arc → EState → Option (EState × List (List Arc)))
    (u : Nat) : List Arc → EState → Option (EState × List (List Arc))
  | [], σ => some (σ, [])
  | nb :: rest, σ =>
    if nb ∈ σ.get u then
      let (σ1, j) := σ.alloc (σ.get u)
      match recur j nb σ1 with
      | none => none
      | some (σ2, reps) =>
        match neighborLoop recur u rest σ2 with
        | none => none
        | some (σ3, reps2) => some (σ3, reps ++ reps2)
    else
      neighborLoop recur u rest σ

/-- traverseAll from traverse.py over the buffer store.  `u` is the index of
this call's unvisited buffer, `p` of the shared path buffer.  The result is
the new store plus the list of paths printed as complete; `none` models an
uncaught exception (the `path[-1]` IndexError or the ValueError from
`remove`).  `fuel` bounds the recursion depth; every recursive call shrinks
its unvisited buffer, so any fuel above the initial buffer length is never
exhausted. -/
def traverseAll : Nat → Nat → Arc → Nat → EState → Option (EState × List (List Arc))
  | 0, _, _, _, _ => none
  | fuel + 1, u, start, p, σ =>
    match removeFullArc σ.graph start (σ.get u) with
    | none => none
    | some u2 =>
      let σ1 := σ.set u u2
      if u2 = [] then
        match (σ1.get p).getLast? with
        | none => none
        | some last =>
          if last.finish == start.start then
            let full := σ1.get p ++ [start]
            some (σ1.set p full, [full])
          else
            some (σ1, [])
      else
        match (σ1.get p).getLast? with
        | none =>
          let σ2 := σ1.set p (σ1.get p ++ [start])
          neighborLoop (fun j nb σ3 => traverseAll fuel j nb p σ3) u
            (σ2.graph.getArcsFrom start.finish) σ2
        | some last =>
          if last.finish == start.start then
            let σ2 := σ1.set p (σ1.get p ++ [start])
            neighborLoop (fun j nb σ3 => traverseAll fuel j nb p σ3) u
              (σ2.graph.getArcsFrom start.finish) σ2
          else
            some (σ1, [])

/-- The `for starting_point in available` loop of traverse(): every starting
arc gets a fresh copy of the `available` buffer (index `availIdx`) and a
fresh empty path buffer. -/
def startLoop (fuel : Nat) (starts : List Arc) (availIdx : Nat) (σ : EState) :
    Option (EState × List (List Arc)) :=
  match starts with
  | [] => some (σ, [])
  | s :: rest =>
    let (σ1, u) := σ.alloc (σ.get availIdx)
    let (σ2, p) := σ1.alloc []
    match traverseAll fuel u s p σ2 with
    | none => none
    | some (σ3, reps) =>
      match startLoop fuel rest availIdx σ3 with
      | none => none
      | some (σ4, reps2) => some (σ4, reps ++ reps2)

/-- The body of traverse() once a graph is loaded: the Boolean records
whether the no-path message was printed (checkIfEuler failed) and the
second component collects the complete paths printed by the searches that
the driver then runs for every starting arc (`none` = a search raised). -/
def traverse (g : Graph) : Bool × Option (List (List Arc)) :=
  let available := g.getArcs
  let σ : EState := ⟨g, [available]⟩
  let msg := checkIfEuler g == false
  (msg, (startLoop (available.length + 1) available 0 σ).map Prod.snd)

/-- A path is chained when each arc starts where the previous one
finishes. -/
def Chained (path : List Arc) : Prop :=
  List.Chain' (fun a b => a.finish = b.start) path

instance : DecidablePred Chained := fun l => by unfold Chained; infer_instance

/-- The scratch attributes written on nodes by the Hopcroft-Tarjan pass,
keyed by node id: the visited flag, and the parent / depth / low
attributes (an absent key is an unset attribute; parent absent models
`None`). -/
structure HTState where
  visitedIds : List Nat
  parentMap : List (Nat × Nat)
  depthMap : List (Nat × Nat)
  lowMap : List (Nat × Nat)
  cutpoints : List Node
deriving DecidableEq, Repr

/-- Attribute read. -/
def lookupNat (m : List (Nat × Nat)) (k : Nat) : Option Nat :=
  (m.find? (fun q => q.1 == k)).map Prod.snd

/-- Attribute write. -/
def storeNat (m : List (Nat × Nat)) (k v : Nat) : List (Nat × Nat) :=
  if m.any (fun q => q.1 == k) then
    m.map (fun q => if q.1 == k then (k, v) else q)
  else m ++ [(k, v)]

/-- The `for node in neighbors` loop of applyHopcroftTarjan, threading the
state, the isCutPoint flag and the children counter; `recur node s` stands
for the recursive applyHopcroftTarjan call at depth + 1. -/
def htLoop (recur : Node → HTState → HTState) (start : Node) :
    List Node → HTState → Bool → Nat → HTState × Bool × Nat
  | [], s, isCut, children => (s, isCut, children)
  | node :: rest, s, isCut, children =>
    if node.id ∈ s.visitedIds then
      if (lookupNat s.parentMap start.id).all (fun pid => node.id ≠ pid) then
        let low0 := (lookupNat s.lowMap start.id).getD 0
        let nd := (lookupNat s.depthMap node.id).getD 0
        let s1 := { s with lowMap := storeNat s.lowMap start.id (min low0 nd) }
        htLoop recur start rest s1 isCut children
      else
        htLoop recur start rest s isCut children
    else
      let s1 := { s with parentMap := storeNat s.parentMap node.id start.id }
      let s2 := recur node s1
      let isCut1 :=
        if (lookupNat s2.lowMap node.id).getD 0 ≥
            (lookupNat s2.depthMap start.id).getD 0 then true else isCut
      let low0 := (lookupNat s2.lowMap start.id).getD 0
      let nl := (lookupNat s2.lowMap node.id).getD 0
      let s3 := { s2 with lowMap := storeNat s2.lowMap start.id (min low0 nl) }
      htLoop recur start rest s3 isCut1 (children + 1)

/-- applyHopcroftTarjan from HopcroftTarjan.py: mark the node visited, set
depth and low, fold over getNeighbors updating low-links and the cut-point
flag, then append the node to the cutpoints list when flagged.  `fuel`
bounds the recursion depth (each level visits a previously unvisited node,
so any fuel above the node count is never exhausted). -/
def applyHopcroftTarjan (g : Graph) : Nat → Node → Nat → HTState → HTState
  | 0, _, _, s => s
  | fuel + 1, start, depth, s =>
    let s1 := { s with visitedIds := start.id :: s.visitedIds,
                       depthMap := storeNat s.depthMap start.id depth,
                       lowMap := storeNat s.lowMap start.id depth }
    let r := htLoop (fun node s2 => applyHopcroftTarjan g fuel node (depth + 1) s2)
      start (g.getNeighbors start) s1 false 0
    let s4 := r.1
    let isCut :=
      if lookupNat s4.parentMap start.id = none then decide (r.2.2 > 1)
      else r.2.1
    if isCut then { s4 with cutpoints := s4.cutpoints ++ [start] } else s4

/-- findArticulationPoints from HopcroftTarjan.py: reset the scratch
attributes, root the DFS at the first node in sorted order and return the
cutpoints list; on an empty graph `nodes[0]` raises IndexError (`none`). -/
def findArticulationPoints (g : Graph) : Option (List Node) :=
  match g.getNodes with
  | [] => none
  | n0 :: _ =>
    some (applyHopcroftTarjan g (g.nodes.length + 1) n0 0 ⟨[], [], [], [], []⟩).cutpoints

/-! Concrete graphs used by the claims. -/

def nA : Node := ⟨0, "A"⟩
def nB : Node := ⟨1, "B"⟩
def nC : Node := ⟨2, "C"⟩
def nD : Node := ⟨3, "D"⟩

/-- The undirected path graph A-B-C-D, each edge a reciprocal arc pair. -/
def pathABCD : Graph :=
  ⟨[("A", nA), ("B", nB), ("C", nC), ("D", nD)],
   [⟨0, nA, nB⟩, ⟨1, nB, nA⟩, ⟨2, nB, nC⟩, ⟨3, nC, nB⟩, ⟨4, nC, nD⟩, ⟨5, nD, nC⟩],
   10⟩

/-- The undirected triangle A-B, B-C, C-A as reciprocal arc pairs. -/
def triangleABC : Graph :=
  ⟨[("A", nA), ("B", nB), ("C", nC)],
   [⟨0, nA, nB⟩, ⟨1, nB, nA⟩, ⟨2, nB, nC⟩, ⟨3, nC, nB⟩, ⟨4, nC, nA⟩, ⟨5, nA, nC⟩],
   10⟩

/-- The directed path A -> B -> C -> D: three nodes of odd out-degree. -/
def directedPath : Graph :=
  ⟨[("A", nA), ("B", nB), ("C", nC), ("D", nD)],
   [⟨0, nA, nB⟩, ⟨1, nB, nC⟩, ⟨2, nC, nD⟩],
   10⟩

/-- Two parallel arcs from A to B. -/
def parallelAB : Graph :=
  ⟨[("A", nA), ("B", nB)],
   [⟨0, nA, nB⟩, ⟨1, nA, nB⟩],
   10⟩

/-- A graph with a reciprocal pair at A, a self-loop at A and one arc not
incident to A. -/
def loopGraph : Graph :=
  ⟨[("A", nA), ("B", nB), ("C", nC), ("D", nD)],
   [⟨0, nA, nB⟩, ⟨1, nB, nA⟩, ⟨2, nA, nA⟩, ⟨3, nC, nD⟩],
   10⟩

/-- A self-loop arc at A. -/
def selfLoopArc : Arc := ⟨2, nA, nA⟩

/-- The well-formedness invariant every graph reachable through the Python
API satisfies: the node dict has no duplicate keys, each dict entry keys a
node by its own name, and the arc set holds no duplicates. -/
def Graph.WF (g : Graph) : Prop :=
  (g.nodes.map Prod.fst).Nodup ∧ (∀ p ∈ g.nodes, p.1 = p.2.name) ∧ g.arcs.Nodup

instance (g : Graph) : Decidable g.WF := by unfold Graph.WF; infer_instance

/-! Shared helper lemmas. -/

theorem charsLt_irrefl (cs : List Char) : charsLt cs cs = false := by
  induction cs with
  | nil => rfl
  | cons c cs ih => simp [charsLt, ih, Nat.lt_irrefl]

theorem strLt_irrefl (s : String) : strLt s s = false := charsLt_irrefl s.data

theorem dict_key_unique : ∀ (l : List (String × Node)), (l.map Prod.fst).Nodup →
    ∀ p ∈ l, ∀ q ∈ l, p.1 = q.1 → p = q := by
  intro l
  induction l with
  | nil => intro _ p hp; cases hp
  | cons a l ih =>
    intro h p hp q hq heq
    rw [List.map_cons, List.nodup_cons] at h
    rcases List.mem_cons.1 hp with rfl | hp2
    · rcases List.mem_cons.1 hq with rfl | hq2
      · rfl
      · exact absurd (List.mem_map.2 ⟨q, hq2, heq.symm⟩) h.1
    · rcases List.mem_cons.1 hq with rfl | hq2
      · exact absurd (List.mem_map.2 ⟨p, hp2, heq⟩) h.1
      · exact ih h.2 p hp2 q hq2 heq

theorem dictGet_some_mem {l : List (String × Node)} {k : String} {v : Node}
    (h : dictGet l k = some v) : (k, v) ∈ l := by
  unfold dictGet at h
  cases hf : l.find? (fun p => p.1 == k) with
  | none => rw [hf] at h; cases h
  | some e =>
    rw [hf] at h
    have he : e.2 = v := by cases h; rfl
    have hk := List.find?_some hf
    rw [beq_iff_eq] at hk
    have hm := List.mem_of_find?_eq_some hf
    rw [← he, ← hk]
    simpa using hm

theorem dictGet_some_any {l : List (String × Node)} {k : String} {v : Node}
    (h : dictGet l k = some v) : l.any (fun p => p.1 == k) = true := by
  rw [List.any_eq_true]
  exact ⟨(k, v), dictGet_some_mem h, by simp⟩

theorem dictGet_none_all {l : List (String × Node)} {k : String}
    (h : dictGet l k = none) : ∀ p ∈ l, (p.1 == k) = false := by
  unfold dictGet at h
  cases hf : l.find? (fun p => p.1 == k) with
  | some e => rw [hf] at h; cases h
  | none =>
    intro p hp
    have := List.find?_eq_none.1 hf p hp
    simpa using this

theorem dictSet_existing {l : List (String × Node)} {k : String} {v : Node}
    (hkeys : (l.map Prod.fst).Nodup) (hget : dictGet l k = some v) :
    dictSet l k v = l := by
  unfold dictSet
  rw [if_pos (dictGet_some_any hget)]
  have hm : ∀ p ∈ l, (if p.1 == k then (k, v) else p) = id p := by
    intro p hp
    by_cases hpk : p.1 = k
    · have hpv : p = (k, v) :=
        dict_key_unique l hkeys p hp (k, v) (dictGet_some_mem hget) hpk
      simp [hpk, hpv]
    · simp [hpk]
  rw [List.map_congr_left hm, List.map_id]

theorem dictGet_append_of_none {l1 l2 : List (String × Node)} {k : String}
    (h : dictGet l1 k = none) : dictGet (l1 ++ l2) k = dictGet l2 k := by
  unfold dictGet at h ⊢
  rw [List.find?_append]
  cases hf : l1.find? (fun p => p.1 == k) with
  | some e => rw [hf] at h; cases h
  | none => rfl

theorem dictSet_cons_of_ne {a : String × Node} {l : List (String × Node)}
    {k : String} {v : Node} (hb : (a.1 == k) = false) :
    dictSet (a :: l) k v = a :: dictSet l k v := by
  unfold dictSet
  rw [List.any_cons, hb, Bool.false_or]
  by_cases hc : l.any (fun p => p.1 == k) = true
  · rw [if_pos hc, if_pos hc, List.map_cons, hb]
    simp
  · rw [if_neg hc, if_neg hc]
    rfl

theorem dictGet_dictSet_self (l : List (String × Node)) (k : String) (v : Node) :
    dictGet (dictSet l k v) k = some v := by
  induction l with
  | nil => simp [dictGet, dictSet]
  | cons a l ih =>
    by_cases hak : a.1 = k
    · have hb : (a.1 == k) = true := by simp [hak]
      unfold dictSet
      rw [List.any_cons, hb, Bool.true_or, if_pos rfl, List.map_cons, hb]
      simp [dictGet, List.find?_cons]
    · have hb : (a.1 == k) = false := by simp [hak]
      rw [dictSet_cons_of_ne hb]
      unfold dictGet
      rw [List.find?_cons, hb]
      exact ih

theorem mem_sortArcs {l : List Arc} {a : Arc} : a ∈ sortArcs l ↔ a ∈ l :=
  List.mem_insertionSort arcOrd

theorem sortArcs_nodup {l : List Arc} (h : l.Nodup) : (sortArcs l).Nodup :=
  (List.perm_insertionSort arcOrd l).symm.nodup h

theorem mem_getArcsFrom_iff {g : Graph} {n : Node} {a : Arc} :
    a ∈ g.getArcsFrom n ↔ a ∈ g.arcs ∧ a.start = n := by
  unfold Graph.getArcsFrom
  rw [mem_sortArcs, List.mem_filter, beq_iff_eq]

theorem mem_getArcsTo_iff {g : Graph} {n : Node} {a : Arc} :
    a ∈ g.getArcsTo n ↔ a ∈ g.arcs ∧ a.finish = n := by
  unfold Graph.getArcsTo
  rw [mem_sortArcs, List.mem_filter, beq_iff_eq]

theorem length_filter_split (l : List Arc) (p : Arc → Bool) :
    (l.filter p).length + (l.filter (fun a => !(p a))).length = l.length := by
  induction l with
  | nil => rfl
  | cons x xs ih => by_cases h : p x <;> simp [List.filter_cons, h] <;> omega

theorem foldlM_removeArc : ∀ (ts : List Arc) (g : Graph), g.arcs.Nodup →
    (∀ a ∈ ts, a ∈ g.arcs) → ts.Nodup →
    ts.foldlM Graph.removeArc g =
      some { g with arcs := g.arcs.filter (fun a => decide (a ∉ ts)) } := by
  intro ts
  induction ts with
  | nil =>
    intro g hg _ _
    rw [List.foldlM_nil]
    have he : g.arcs.filter (fun a => decide (a ∉ ([] : List Arc))) = g.arcs := by
      simp
    rw [he]
    rfl
  | cons t rest ih =>
    intro g hg hts hnd
    rw [List.foldlM_cons]
    have ht : t ∈ g.arcs := hts t (List.mem_cons_self t rest)
    have h1 : Graph.removeArc g t = some { g with arcs := g.arcs.erase t } := by
      unfold Graph.removeArc
      rw [if_pos ht]
    rw [h1]
    rw [List.nodup_cons] at hnd
    show List.foldlM Graph.removeArc { g with arcs := g.arcs.erase t } rest = _
    have hg1 : ({ g with arcs := g.arcs.erase t } : Graph).arcs.Nodup := hg.erase t
    have hts1 : ∀ a ∈ rest, a ∈ ({ g with arcs := g.arcs.erase t } : Graph).arcs := by
      intro a ha
      have hat : a ≠ t := fun he => hnd.1 (he ▸ ha)
      exact (List.mem_erase_of_ne hat).2 (hts a (List.mem_cons_of_mem t ha))
    rw [ih _ hg1 hts1 hnd.2]
    have harc : (g.arcs.erase t).filter (fun a => decide (a ∉ rest)) =
        g.arcs.filter (fun a => decide (a ∉ t :: rest)) := by
      rw [hg.erase_eq_filter t, List.filter_filter]
      apply List.filter_congr
      intro a ha
      by_cases h1 : a = t
      · simp [h1]
      · by_cases h2 : a ∈ rest <;> simp [h1, h2]
    rw [harc]

theorem EState.graph_set (σ : EState) (i : Nat) (l : List Arc) :
    (σ.set i l).graph = σ.graph := rfl

theorem EState.length_set (σ : EState) (i : Nat) (l : List Arc) :
    (σ.set i l).bufs.length = σ.bufs.length := List.length_set σ.bufs i l

theorem EState.get_set_ne (σ : EState) {i j : Nat} (l : List Arc) (h : j ≠ i) :
    (σ.set i l).get j = σ.get j := by
  unfold EState.get EState.set
  simp only [List.getD_eq_getElem?_getD, List.getElem?_set]
  rw [if_neg (fun he => h he.symm)]

theorem EState.get_set_self_or (σ : EState) (i : Nat) (l : List Arc) :
    (σ.set i l).get i = l ∨ (σ.set i l).get i = σ.get i := by
  unfold EState.get EState.set
  by_cases hi : i < σ.bufs.length
  · left
    simp [List.getD_eq_getElem?_getD, List.getElem?_set, hi]
  · right
    simp only [List.getD_eq_getElem?_getD, List.getElem?_set, hi, if_false]
    rw [List.getElem?_eq_none (Nat.le_of_not_lt hi)]
    simp

theorem EState.get_alloc_lt (σ : EState) (l : List Arc) {i : Nat}
    (h : i < σ.bufs.length) : (σ.alloc l).1.get i = σ.get i := by
  unfold EState.get EState.alloc
  simp [List.getD_eq_getElem?_getD, List.getElem?_append, h]

/-- Appending an arc that chains onto the last path entry keeps the path
chained. -/
theorem chained_append_last {l : List Arc} {a : Arc} (hc : Chained l)
    (hl : ∀ x ∈ l.getLast?, x.finish = a.start) : Chained (l ++ [a]) := by
  unfold Chained at hc ⊢
  rw [List.chain'_append]
  refine ⟨hc, List.chain'_singleton a, fun x hx y hy => ?_⟩
  simp only [List.head?_cons, Option.mem_def, Option.some.injEq] at hy
  rw [← hy]
  exact hl x hx

/-- The joint invariant of a successful traverseAll call, proved by
induction on the fuel: the graph object is never mutated, the buffer heap
only grows, every pre-existing buffer other than the call's own unvisited
buffer and the shared path buffer is left unchanged, and when the path
buffer is chained on entry it stays chained and every reported path is
chained. -/
theorem traverseAll_invariant : ∀ (fuel u p : Nat) (start : Arc) (σ : EState)
    (res : EState × List (List Arc)), u ≠ p → p < σ.bufs.length →
    traverseAll fuel u start p σ = some res →
    res.1.graph = σ.graph ∧
    σ.bufs.length ≤ res.1.bufs.length ∧
    (∀ i, i < σ.bufs.length → i ≠ u → i ≠ p → res.1.get i = σ.get i) ∧
    (Chained (σ.get p) → Chained (res.1.get p) ∧ ∀ r ∈ res.2, Chained r) := by
  intro fuel
  induction fuel with
  | zero =>
    intro u p start σ res _ _ h
    exact absurd h (by simp [traverseAll])
  | succ fuel ih =>
    have hloop : ∀ (nbs : List Arc) (u p : Nat) (σ : EState)
        (res : EState × List (List Arc)), p < σ.bufs.length →
        neighborLoop (fun j nb σ3 => traverseAll fuel j nb p σ3) u nbs σ = some res →
        res.1.graph = σ.graph ∧
        σ.bufs.length ≤ res.1.bufs.length ∧
        (∀ i, i < σ.bufs.length → i ≠ p → res.1.get i = σ.get i) ∧
        (Chained (σ.get p) → Chained (res.1.get p) ∧ ∀ r ∈ res.2, Chained r) := by
      intro nbs
      induction nbs with
      | nil =>
        intro u p σ res hp h
        simp only [neighborLoop, Option.some.injEq] at h
        rw [← h]
        exact ⟨rfl, Nat.le_refl _, fun i _ _ => rfl, fun hc => ⟨hc, by simp⟩⟩
      | cons nb rest ihn =>
        intro u p σ res hp h
        simp only [neighborLoop, EState.alloc] at h
        by_cases hnb : nb ∈ σ.get u
        · rw [if_pos hnb] at h
          cases htv : traverseAll fuel σ.bufs.length nb p ⟨σ.graph, σ.bufs ++ [σ.get u]⟩ with
          | none => rw [htv] at h; cases h
          | some r2 =>
            rw [htv] at h
            obtain ⟨σ2, reps⟩ := r2
            simp only [] at h
            cases hnl : neighborLoop (fun j nb σ3 => traverseAll fuel j nb p σ3)
                u rest σ2 with
            | none => rw [hnl] at h; cases h
            | some r3 =>
              rw [hnl] at h
              obtain ⟨σ3, reps2⟩ := r3
              simp only [] at h
              simp only [Option.some.injEq] at h
              rw [← h]
              have hplt : p < (⟨σ.graph, σ.bufs ++ [σ.get u]⟩ : EState).bufs.length := by
                show p < (σ.bufs ++ [σ.get u]).length
                rw [List.length_append]
                simp only [List.length_cons, List.length_nil]
                omega
              have hjp : σ.bufs.length ≠ p := fun he => by omega
              have hP := ih σ.bufs.length p nb ⟨σ.graph, σ.bufs ++ [σ.get u]⟩
                (σ2, reps) hjp hplt htv
              have hlenP : σ.bufs.length + 1 ≤ σ2.bufs.length := by
                have h0 : (σ.bufs ++ [σ.get u]).length ≤ σ2.bufs.length := hP.2.1
                rw [List.length_append] at h0
                simpa using h0
              have hp2 : p < σ2.bufs.length := by omega
              have hQ := ihn u p σ2 (σ3, reps2) hp2 hnl
              have hlenQ : σ2.bufs.length ≤ σ3.bufs.length := hQ.2.1
              refine ⟨?_, ?_, ?_, ?_⟩
              · have hg1 : σ3.graph = σ2.graph := hQ.1
                have hg2 : σ2.graph = σ.graph := hP.1
                show σ3.graph = σ.graph
                rw [hg1, hg2]
              · show σ.bufs.length ≤ σ3.bufs.length
                omega
              · intro i hilt hip
                have hij : i ≠ σ.bufs.length := by omega
                have hialloc : i < (⟨σ.graph, σ.bufs ++ [σ.get u]⟩ : EState).bufs.length := by
                  show i < (σ.bufs ++ [σ.get u]).length
                  rw [List.length_append]
                  simp only [List.length_cons, List.length_nil]
                  omega
                have e1 : σ3.get i = σ2.get i := hQ.2.2.1 i (by omega) hip
                have e2 : σ2.get i = (⟨σ.graph, σ.bufs ++ [σ.get u]⟩ : EState).get i :=
                  hP.2.2.1 i hialloc hij hip
                have e3 : (⟨σ.graph, σ.bufs ++ [σ.get u]⟩ : EState).get i = σ.get i :=
                  EState.get_alloc_lt σ (σ.get u) hilt
                show σ3.get i = σ.get i
                rw [e1, e2, e3]
              · intro hc
                have hcp : Chained ((⟨σ.graph, σ.bufs ++ [σ.get u]⟩ : EState).get p) := by
                  have e : (⟨σ.graph, σ.bufs ++ [σ.get u]⟩ : EState).get p = σ.get p :=
                    EState.get_alloc_lt σ (σ.get u) hp
                  rw [e]
                  exact hc
                have hCP : Chained (σ2.get p) ∧ ∀ r ∈ reps, Chained r := hP.2.2.2 hcp
                have hCQ : Chained (σ3.get p) ∧ ∀ r ∈ reps2, Chained r := hQ.2.2.2 hCP.1
                refine ⟨hCQ.1, fun r hr => ?_⟩
                rcases List.mem_append.1 hr with hr1 | hr2
                · exact hCP.2 r hr1
                · exact hCQ.2 r hr2
        · rw [if_neg hnb] at h
          exact ihn u p σ res hp h
    intro u p start σ res hup hp h
    simp only [traverseAll] at h
    cases hrf : removeFullArc σ.graph start (σ.get u) with
    | none => rw [hrf] at h; cases h
    | some u2 =>
      rw [hrf] at h
      simp only [] at h
      have hgp : (σ.set u u2).get p = σ.get p :=
        EState.get_set_ne σ u2 (Ne.symm hup)
      have hplen : p < (σ.set u u2).bufs.length := by
        rw [EState.length_set]; exact hp
      by_cases hu2 : u2 = []
      · rw [if_pos hu2] at h
        cases hlast : ((σ.set u u2).get p).getLast? with
        | none => rw [hlast] at h; exact absurd h (by simp)
        | some last =>
          rw [hlast] at h
          simp only [] at h
          by_cases hbeq : (last.finish == start.start) = true
          · rw [if_pos hbeq] at h
            simp only [Option.some.injEq] at h
            rw [← h]
            have hchain : Chained (σ.get p) →
                Chained ((σ.set u u2).get p ++ [start]) := by
              intro hc
              apply chained_append_last (by rw [hgp]; exact hc)
              intro x hx
              rw [hlast] at hx
              simp only [Option.mem_def, Option.some.injEq] at hx
              rw [← hx]
              exact beq_iff_eq.1 hbeq
            refine ⟨rfl, ?_, ?_, ?_⟩
            · rw [EState.length_set, EState.length_set]
            · intro i hilt hiu hip
              rw [EState.get_set_ne _ _ hip, EState.get_set_ne _ _ hiu]
            · intro hc
              constructor
              · rcases EState.get_set_self_or (σ.set u u2) p
                  ((σ.set u u2).get p ++ [start]) with he | he
                · rw [he]; exact hchain hc
                · rw [he, hgp]; exact hc
              · intro r hr
                simp only [List.mem_singleton] at hr
                rw [hr]
                exact hchain hc
          · rw [if_neg hbeq] at h
            simp only [Option.some.injEq] at h
            rw [← h]
            refine ⟨rfl, ?_, ?_, ?_⟩
            · rw [EState.length_set]
            · intro i hilt hiu hip
              rw [EState.get_set_ne _ _ hiu]
            · intro hc
              rw [hgp]
              exact ⟨hc, by simp⟩
      · rw [if_neg hu2] at h
        have hmain : ∀ (res : EState × List (List Arc)),
            (∀ x ∈ ((σ.set u u2).get p).getLast?, x.finish = start.start) →
            neighborLoop (fun j nb σ3 => traverseAll fuel j nb p σ3) u
              (EState.graph ((σ.set u u2).set p ((σ.set u u2).get p ++ [start])) |>.getArcsFrom start.finish)
              ((σ.set u u2).set p ((σ.set u u2).get p ++ [start])) = some res →
            res.1.graph = σ.graph ∧
            σ.bufs.length ≤ res.1.bufs.length ∧
            (∀ i, i < σ.bufs.length → i ≠ u → i ≠ p → res.1.get i = σ.get i) ∧
            (Chained (σ.get p) → Chained (res.1.get p) ∧ ∀ r ∈ res.2, Chained r) := by
          intro res hl hcall
          have hplen2 : p < ((σ.set u u2).set p
              ((σ.set u u2).get p ++ [start])).bufs.length := by
            rw [EState.length_set, EState.length_set]; exact hp
          have hQ := hloop _ u p _ res hplen2 hcall
          have hchain2 : Chained (σ.get p) →
              Chained (((σ.set u u2).set p ((σ.set u u2).get p ++ [start])).get p) := by
            intro hc
            rcases EState.get_set_self_or (σ.set u u2) p
                ((σ.set u u2).get p ++ [start]) with he | he
            · rw [he]
              exact chained_append_last (by rw [hgp]; exact hc) hl
            · rw [he, hgp]; exact hc
          refine ⟨?_, ?_, ?_, ?_⟩
          · rw [hQ.1]; rfl
          · have := hQ.2.1
            rw [EState.length_set, EState.length_set] at this
            exact this
          · intro i hilt hiu hip
            have e1 := hQ.2.2.1 i (by rw [EState.length_set, EState.length_set]; exact hilt) hip
            rw [e1, EState.get_set_ne _ _ hip, EState.get_set_ne _ _ hiu]
          · intro hc
            exact hQ.2.2.2 (hchain2 hc)
        cases hlast : ((σ.set u u2).get p).getLast? with
        | none =>
          rw [hlast] at h
          simp only [] at h
          exact hmain res (by rw [hlast]; intro x hx; cases hx) h
        | some last =>
          rw [hlast] at h
          simp only [] at h
          by_cases hbeq : (last.finish == start.start) = true
          · rw [if_pos hbeq] at h
            refine hmain res ?_ h
            rw [hlast]
            intro x hx
            simp only [Option.mem_def, Option.some.injEq] at hx
            rw [← hx]
            exact beq_iff_eq.1 hbeq
          · rw [if_neg hbeq] at h
            simp only [Option.some.injEq] at h
            rw [← h]
            refine ⟨rfl, ?_, ?_, ?_⟩
            · rw [EState.length_set]
            · intro i hilt hiu hip
              rw [EState.get_set_ne _ _ hiu]
            · intro hc
              rw [hgp]
              exact ⟨hc, by simp⟩


/-- C1: code-bug evidence.  On the directed path A->B->C->D three nodes have
odd out-degree, so checkIfEuler fails and traverse prints the no-path
message; yet the driver still runs the backtracking search for every
starting arc - the no-path branch does not stop the loop - and the search
even reports the completed path [A->B, B->C, C->D] right after the message. -/
theorem traverse_reports_no_path_but_still_searches :
    (traverse directedPath).1 = true ∧
    (traverse directedPath).2 = some [[⟨0, nA, nB⟩, ⟨1, nB, nC⟩, ⟨2, nC, nD⟩]] := by
  decide

/-- C2: counterexample.  On the undirected triangle the first path the search
reports as complete is [A->B, B->C, C->A]; the arc B->A belongs to the graph
but is not used by that path (removeFullArc deletes reciprocal arcs from the
remaining set without appending them), so a reported path does not use every
arc of the graph exactly once. -/
theorem reported_path_omits_reciprocal_arc :
    ((traverse triangleABC).2.getD []).head? =
      some [⟨0, nA, nB⟩, ⟨2, nB, nC⟩, ⟨4, nC, nA⟩] ∧
    (⟨1, nB, nA⟩ : Arc) ∈ triangleABC.arcs ∧
    (⟨1, nB, nA⟩ : Arc) ∉ [(⟨0, nA, nB⟩ : Arc), ⟨2, nB, nC⟩, ⟨4, nC, nA⟩] := by
  decide

/-- C3: counterexample.  Node A has two parallel arcs to B, yet the neighbor
list the articulation-point DFS iterates over (getNeighbors, which collects
arc targets into a set) contains B once, not twice: the recursive step does
not iterate once per outgoing arc. -/
theorem dfs_neighbor_list_deduplicates_parallel_arcs :
    (parallelAB.getNeighbors nA).count nB = 1 ∧
    (parallelAB.arcs.filter (fun a => a.start == nA && a.finish == nB)).length = 2 := by
  decide

/-- C4: on the undirected path graph A-B-C-D, findArticulationPoints returns
exactly the nodes C and B (in unwind order), so B and C are cut points and
neither A nor D is. -/
theorem articulation_points_path_graph :
    findArticulationPoints pathABCD = some [nC, nB] ∧
    nB ∈ [nC, nB] ∧ nC ∈ [nC, nB] ∧ nA ∉ [nC, nB] ∧ nD ∉ [nC, nB] := by
  decide

/-- C5: removeNode removes exactly the arcs incident to the node (self-loops
and parallel arcs included): afterwards the arc set is the original one with
precisely the incident arcs filtered out - no non-incident arc is removed -
and its size drops by the number of incident arcs.  Proved under the graph
well-formedness invariant with the node registered under its name. -/
theorem removeNode_removes_exactly_incident (g : Graph) (n : Node)
    (hwf : g.WF) (hn : g.getNode n.name = some n) :
    ∃ g2, g.removeNode (NodeSpec.node n) = some g2 ∧
      g2.arcs = g.arcs.filter (fun a => !(a.start == n || a.finish == n)) ∧
      g2.arcs.length +
        (g.arcs.filter (fun a => a.start == n || a.finish == n)).length =
        g.arcs.length := by
  obtain ⟨hkeys, hcoh, harcs⟩ := hwf
  have hts1mem : ∀ a ∈ g.getArcsFrom n, a ∈ g.arcs := fun a ha =>
    (mem_getArcsFrom_iff.1 ha).1
  have hts1nd : (g.getArcsFrom n).Nodup := sortArcs_nodup (harcs.filter _)
  have h1 := foldlM_removeArc (g.getArcsFrom n) g harcs hts1mem hts1nd
  have hA1 : g.arcs.filter (fun a => decide (a ∉ g.getArcsFrom n)) =
      g.arcs.filter (fun a => !(a.start == n)) := by
    apply List.filter_congr
    intro a ha
    by_cases hs : a.start = n
    · have hmem : a ∈ g.getArcsFrom n := mem_getArcsFrom_iff.2 ⟨ha, hs⟩
      simp [hmem, hs]
    · have hmem : a ∉ g.getArcsFrom n := fun hm => hs (mem_getArcsFrom_iff.1 hm).2
      simp [hmem, hs]
  rw [hA1] at h1
  have hg1nd : (g.arcs.filter (fun a => !(a.start == n))).Nodup := harcs.filter _
  have hts2mem : ∀ a ∈ Graph.getArcsTo
      { g with arcs := g.arcs.filter (fun a => !(a.start == n)) } n,
      a ∈ g.arcs.filter (fun a => !(a.start == n)) := fun a ha =>
    (mem_getArcsTo_iff.1 ha).1
  have hts2nd : (Graph.getArcsTo
      { g with arcs := g.arcs.filter (fun a => !(a.start == n)) } n).Nodup :=
    sortArcs_nodup (hg1nd.filter _)
  have h2 := foldlM_removeArc
    (Graph.getArcsTo { g with arcs := g.arcs.filter (fun a => !(a.start == n)) } n)
    { g with arcs := g.arcs.filter (fun a => !(a.start == n)) } hg1nd hts2mem hts2nd
  have hA2 : (g.arcs.filter (fun a => !(a.start == n))).filter
      (fun a => decide (a ∉ Graph.getArcsTo
        { g with arcs := g.arcs.filter (fun a => !(a.start == n)) } n)) =
      g.arcs.filter (fun a => !(a.start == n || a.finish == n)) := by
    have hstep : (g.arcs.filter (fun a => !(a.start == n))).filter
        (fun a => decide (a ∉ Graph.getArcsTo
          { g with arcs := g.arcs.filter (fun a => !(a.start == n)) } n)) =
        (g.arcs.filter (fun a => !(a.start == n))).filter
          (fun a => !(a.finish == n)) := by
      apply List.filter_congr
      intro a ha
      by_cases hf : a.finish = n
      · have hmem : a ∈ Graph.getArcsTo
            { g with arcs := g.arcs.filter (fun a => !(a.start == n)) } n :=
          mem_getArcsTo_iff.2 ⟨ha, hf⟩
        simp [hmem, hf]
      · have hmem : a ∉ Graph.getArcsTo
            { g with arcs := g.arcs.filter (fun a => !(a.start == n)) } n :=
          fun hm => hf (mem_getArcsTo_iff.1 hm).2
        simp [hmem, hf]
    rw [hstep, List.filter_filter]
    apply List.filter_congr
    intro a ha
    by_cases hs : a.start = n <;> by_cases hf : a.finish = n <;>
      simp [hs, hf, Bool.and_comm]
  rw [hA2] at h2
  have hany : g.nodes.any (fun p => p.1 == n.name) = true := dictGet_some_any hn
  refine ⟨{ g with
      nodes := dictDel g.nodes n.name,
      arcs := g.arcs.filter (fun a => !(a.start == n || a.finish == n)) },
    ?_, rfl, ?_⟩
  · show g.removeNodeResolved n = _
    unfold Graph.removeNodeResolved
    rw [h1, Option.some_bind, h2, Option.some_bind]
    rw [hany]
    simp
  · show (g.arcs.filter (fun a => !(a.start == n || a.finish == n))).length + _ = _
    have := length_filter_split g.arcs (fun a => a.start == n || a.finish == n)
    omega

/-- C5 witness: removing node A from the graph with arcs A->B, B->A, the
self-loop A->A and the non-incident C->D. -/
theorem removeNode_removes_exactly_incident_witness :
    loopGraph.WF ∧ loopGraph.getNode nA.name = some nA ∧
    (∃ g2, loopGraph.removeNode (NodeSpec.node nA) = some g2 ∧
      g2.arcs = loopGraph.arcs.filter (fun a => !(a.start == nA || a.finish == nA)) ∧
      g2.arcs.length +
        (loopGraph.arcs.filter (fun a => a.start == nA || a.finish == nA)).length =
        loopGraph.arcs.length) :=
  ⟨by decide, by decide,
   removeNode_removes_exactly_incident loopGraph nA (by decide) (by decide)⟩

/-- C6: counterexample.  For a self-loop arc whose list contains no other
matching arc, removeReverseArc already removes the arc itself (a self-loop
is its own reversal), so the subsequent `unvisited.remove(arc)` raises
ValueError: removeFullArc is not exception-free on self-loops. -/
theorem removeFullArc_raises_on_lone_self_loop :
    removeFullArc loopGraph selfLoopArc [selfLoopArc] = none := by
  decide

/-- The store for the branch-isolation and chainedness witnesses: the
available buffer (index 0), one unvisited copy (index 1, the branch's own)
and the empty shared path buffer (index 2). -/
def eulerWitnessState : EState :=
  ⟨directedPath, [[⟨0, nA, nB⟩, ⟨1, nB, nC⟩], [⟨0, nA, nB⟩, ⟨1, nB, nC⟩], []]⟩

/-- C2 (amended): every path the Euler backtracking search reports as
complete is chained - each arc's start node equals the previous arc's
finish node - whenever the shared path buffer is chained on entry (the
driver starts every branch with an empty path).  A reported path need not
use every arc of the graph: removeFullArc resolves reciprocal arcs away
without appending them, see the counterexample. -/
theorem traverseAll_reported_paths_chained (fuel u p : Nat) (start : Arc)
    (σ : EState) (res : EState × List (List Arc))
    (h : traverseAll fuel u start p σ = some res)
    (hup : u ≠ p) (hp : p < σ.bufs.length) (hc : Chained (σ.get p)) :
    ∀ r ∈ res.2, Chained r := by
  have hinv := traverseAll_invariant fuel u p start σ res hup hp h
  exact (hinv.2.2.2 hc).2

/-- C2 witness: the branch of the search on the directed path graph that
starts from A->B reports the chained path [A->B, B->C]. -/
theorem traverseAll_reported_paths_chained_witness :
    Chained [(⟨0, nA, nB⟩ : Arc), ⟨1, nB, nC⟩] :=
  traverseAll_reported_paths_chained 3 1 2 ⟨0, nA, nB⟩ eulerWitnessState
    (⟨directedPath,
      [[⟨0, nA, nB⟩, ⟨1, nB, nC⟩], [⟨1, nB, nC⟩],
       [⟨0, nA, nB⟩, ⟨1, nB, nC⟩], []]⟩,
     [[⟨0, nA, nB⟩, ⟨1, nB, nC⟩]])
    (by decide) (by decide) (by decide) (by decide)
    [⟨0, nA, nB⟩, ⟨1, nB, nC⟩] (by decide)

/-- C7: per-branch isolation of the Euler search.  A successful traverseAll
call - one branch of the search - leaves every pre-existing buffer other
than its own unvisited copy (index u) and the shared path buffer (index p)
unchanged, and never mutates the graph object: the remaining-arc buffer
the driver copies for starting-arc (or neighbor) branch two is therefore
unaffected by the removals performed while branch one was explored and
abandoned, and the graph's persistent node/arc membership survives the
whole search. -/
theorem euler_branch_isolation (fuel u p : Nat) (start : Arc) (σ : EState)
    (res : EState × List (List Arc)) (i : Nat)
    (h : traverseAll fuel u start p σ = some res)
    (hup : u ≠ p) (hp : p < σ.bufs.length)
    (hi : i < σ.bufs.length) (hiu : i ≠ u) (hip : i ≠ p) :
    res.1.get i = σ.get i ∧ res.1.graph = σ.graph := by
  have hinv := traverseAll_invariant fuel u p start σ res hup hp h
  exact ⟨hinv.2.2.1 i hi hiu hip, hinv.1⟩

/-- C7 witness: after the branch starting from A->B runs (mutating its own
unvisited buffer 1 and the path buffer 2), the available buffer 0 still
holds its original arcs and the graph object is unchanged. -/
theorem euler_branch_isolation_witness :
    (⟨directedPath,
      [[⟨0, nA, nB⟩, ⟨1, nB, nC⟩], [⟨1, nB, nC⟩],
       [⟨0, nA, nB⟩, ⟨1, nB, nC⟩], []]⟩ : EState).get 0 =
      eulerWitnessState.get 0 ∧
    (⟨directedPath,
      [[⟨0, nA, nB⟩, ⟨1, nB, nC⟩], [⟨1, nB, nC⟩],
       [⟨0, nA, nB⟩, ⟨1, nB, nC⟩], []]⟩ : EState).graph =
      eulerWitnessState.graph :=
  euler_branch_isolation 3 1 2 ⟨0, nA, nB⟩ eulerWitnessState
    (⟨directedPath,
      [[⟨0, nA, nB⟩, ⟨1, nB, nC⟩], [⟨1, nB, nC⟩],
       [⟨0, nA, nB⟩, ⟨1, nB, nC⟩], []]⟩,
     [[⟨0, nA, nB⟩, ⟨1, nB, nC⟩]]) 0
    (by decide) (by decide) (by decide) (by decide) (by decide) (by decide)

/-- C3 (amended): the neighbor list the articulation-point DFS iterates
over in its recursive step is getNeighbors, which collects arc targets
into a set: it contains a neighbor exactly once when at least one
connecting arc exists and never more, so a neighbor connected by k
parallel arcs is processed once per visit, not k times. -/
theorem getNeighbors_counts_each_neighbor_once (g : Graph) (n m : Node) :
    (g.getNeighbors n).count m =
      if g.arcs.any (fun a => a.start == n && a.finish == m) then 1 else 0 := by
  have hmem : m ∈ ((g.arcs.filter (fun a => a.start == n)).map Arc.finish) ↔
      g.arcs.any (fun a => a.start == n && a.finish == m) = true := by
    simp only [List.mem_map, List.mem_filter, List.any_eq_true,
      Bool.and_eq_true, beq_iff_eq]
    constructor
    · rintro ⟨a, ⟨ha, hs⟩, hf⟩; exact ⟨a, ha, hs, hf⟩
    · rintro ⟨a, ha, hs, hf⟩; exact ⟨a, ⟨ha, hs⟩, hf⟩
  unfold Graph.getNeighbors sortNodes
  rw [(List.perm_insertionSort nodeOrd _).count_eq]
  by_cases h : m ∈ ((g.arcs.filter (fun a => a.start == n)).map Arc.finish)
  · rw [List.count_eq_one_of_mem (List.nodup_dedup _) (List.mem_dedup.2 h),
      if_pos (hmem.1 h)]
  · rw [List.count_eq_zero_of_not_mem (fun hm => h (List.mem_dedup.1 hm)),
      if_neg (fun hc => h (hmem.2 hc))]

/-- C6 (amended): for every arc list and every non-self-loop arc in it,
removeFullArc raises no exception: it removes one occurrence of that arc,
and it shortens the list by two when a reciprocal arc is still present
(the first such reciprocal being removed as well), by one otherwise.
Self-loops are the exception the original claim misses. -/
theorem removeFullArc_removes_arc_and_reciprocal (g : Graph) (arc : Arc)
    (l : List Arc) (hmem : arc ∈ l) (hsl : arc.start ≠ arc.finish) :
    ∃ u, removeFullArc g arc l = some u ∧
      u.count arc + 1 = l.count arc ∧
      (if l.any (fun rv => rv.start == arc.finish && rv.finish == arc.start)
       then u.length + 2 = l.length else u.length + 1 = l.length) := by
  have hcnt : 0 < l.count arc := List.count_pos_iff.2 hmem
  unfold removeFullArc removeReverseArc
  cases hf : l.find? (fun rv => rv.start == arc.finish && rv.finish == arc.start) with
  | some rv0 =>
    have hprop := List.find?_some hf
    rw [Bool.and_eq_true, beq_iff_eq, beq_iff_eq] at hprop
    have hra : arc ≠ rv0 := by
      intro he; exact hsl (by rw [← he] at hprop; rw [← hprop.2, ← hprop.1])
    have harc : arc ∈ l.erase rv0 := (List.mem_erase_of_ne hra).2 hmem
    have hrevmem : rv0 ∈ l := List.mem_of_find?_eq_some hf
    rw [if_pos harc]
    refine ⟨(l.erase rv0).erase arc, rfl, ?_, ?_⟩
    · have e1 : ((l.erase rv0).erase arc).count arc = (l.erase rv0).count arc - 1 :=
        List.count_erase_self arc (l.erase rv0)
      have e2 : (l.erase rv0).count arc = l.count arc := List.count_erase_of_ne hra l
      have e3 : 0 < (l.erase rv0).count arc := List.count_pos_iff.2 harc
      omega
    · have hany : l.any (fun rv => rv.start == arc.finish && rv.finish == arc.start)
          = true := by
        rw [List.any_eq_true]
        have hp0 := List.find?_some hf
        exact ⟨rv0, hrevmem, hp0⟩
      have e4 : (l.erase rv0).length = l.length - 1 := List.length_erase_of_mem hrevmem
      have e5 : ((l.erase rv0).erase arc).length = (l.erase rv0).length - 1 :=
        List.length_erase_of_mem harc
      have h1 : 0 < l.length := List.length_pos.2 (List.ne_nil_of_mem hmem)
      have h2 : 0 < (l.erase rv0).length := List.length_pos.2 (List.ne_nil_of_mem harc)
      rw [if_pos hany]
      omega
  | none =>
    rw [if_pos hmem]
    refine ⟨l.erase arc, rfl, ?_, ?_⟩
    · have e1 : (l.erase arc).count arc = l.count arc - 1 := List.count_erase_self arc l
      omega
    · have hany : l.any (fun rv => rv.start == arc.finish && rv.finish == arc.start)
          = false := by
        rw [List.any_eq_false]
        intro x hx
        exact fun hp => by simp [List.find?_eq_none.mp hf x hx] at hp
      have e4 : (l.erase arc).length = l.length - 1 := List.length_erase_of_mem hmem
      have h1 : 0 < l.length := List.length_pos.2 (List.ne_nil_of_mem hmem)
      rw [if_neg (by rw [hany]; simp)]
      omega

/-- C6 witness: removing A->B from [A->B, B->A] succeeds and removes the
reciprocal too. -/
theorem removeFullArc_removes_arc_and_reciprocal_witness :
    (⟨0, nA, nB⟩ : Arc) ∈ [(⟨0, nA, nB⟩ : Arc), ⟨1, nB, nA⟩] ∧
    ∃ u, removeFullArc loopGraph ⟨0, nA, nB⟩ [⟨0, nA, nB⟩, ⟨1, nB, nA⟩] = some u ∧
      u.count ⟨0, nA, nB⟩ + 1 = [(⟨0, nA, nB⟩ : Arc), ⟨1, nB, nA⟩].count ⟨0, nA, nB⟩ ∧
      (if [(⟨0, nA, nB⟩ : Arc), ⟨1, nB, nA⟩].any
          (fun rv => rv.start == (⟨0, nA, nB⟩ : Arc).finish &&
            rv.finish == (⟨0, nA, nB⟩ : Arc).start)
       then u.length + 2 = [(⟨0, nA, nB⟩ : Arc), ⟨1, nB, nA⟩].length
       else u.length + 1 = [(⟨0, nA, nB⟩ : Arc), ⟨1, nB, nA⟩].length) :=
  ⟨by decide, removeFullArc_removes_arc_and_reciprocal loopGraph ⟨0, nA, nB⟩
    [⟨0, nA, nB⟩, ⟨1, nB, nA⟩] (by decide) (by decide)⟩

/-- C8: addNode with a name string is idempotent: calling it twice with the
same name returns the same Node object both times, and the second call
leaves the graph (node dict, arc set, allocation counter) unchanged. -/
theorem addNode_name_idempotent (g : Graph) (s : String) (hwf : g.WF) :
    ((g.addNode (NodeSpec.name s)).1.addNode (NodeSpec.name s)).2 =
      (g.addNode (NodeSpec.name s)).2 ∧
    ((g.addNode (NodeSpec.name s)).1.addNode (NodeSpec.name s)).1 =
      (g.addNode (NodeSpec.name s)).1 := by
  obtain ⟨hkeys, hcoh, harcs⟩ := hwf
  cases hget : g.getNode s with
  | some node =>
    have hmem : (s, node) ∈ g.nodes := dictGet_some_mem hget
    have hname : node.name = s := (hcoh (s, node) hmem).symm
    have hset : dictSet g.nodes node.name node = g.nodes := by
      rw [hname]; exact dictSet_existing hkeys hget
    have h1 : g.addNode (NodeSpec.name s) = (g, node) := by
      simp only [Graph.addNode, hget, hset]
    simp [h1]
  | none =>
    have hany : g.nodes.any (fun p => p.1 == s) = false := by
      rw [List.any_eq_false]
      intro p hp
      simp [dictGet_none_all hget p hp]
    have happ : dictSet g.nodes s ⟨g.fresh, s⟩ = g.nodes ++ [(s, ⟨g.fresh, s⟩)] := by
      unfold dictSet
      rw [hany]
      simp
    have h1 : g.addNode (NodeSpec.name s) =
        ({ g with nodes := g.nodes ++ [(s, ⟨g.fresh, s⟩)], fresh := g.fresh + 1 },
         (⟨g.fresh, s⟩ : Node)) := by
      simp only [Graph.addNode, hget, happ]
    have hget1 :
        ({ g with nodes := g.nodes ++ [(s, ⟨g.fresh, s⟩)], fresh := g.fresh + 1 } : Graph).getNode s = some (⟨g.fresh, s⟩ : Node) := by
      show dictGet (g.nodes ++ [(s, (⟨g.fresh, s⟩ : Node))]) s = _
      rw [dictGet_append_of_none hget]
      simp [dictGet]
    have hkeys1 :
        (((g.nodes ++ [(s, (⟨g.fresh, s⟩ : Node))]).map Prod.fst)).Nodup := by
      rw [List.map_append, List.nodup_append]
      refine ⟨hkeys, by simp, ?_⟩
      intro a ha hb
      rcases List.mem_map.1 ha with ⟨p, hp, rfl⟩
      have hpf := dictGet_none_all hget p hp
      simp only [List.map_cons, List.map_nil, List.mem_singleton] at hb
      rw [hb] at hpf
      simp at hpf
    have hset1 : dictSet (g.nodes ++ [(s, (⟨g.fresh, s⟩ : Node))]) s ⟨g.fresh, s⟩ =
        g.nodes ++ [(s, (⟨g.fresh, s⟩ : Node))] :=
      dictSet_existing hkeys1 hget1
    have h2 : ({ g with nodes := g.nodes ++ [(s, ⟨g.fresh, s⟩)], fresh := g.fresh + 1 } : Graph).addNode (NodeSpec.name s) =
        ({ g with nodes := g.nodes ++ [(s, ⟨g.fresh, s⟩)], fresh := g.fresh + 1 },
         (⟨g.fresh, s⟩ : Node)) := by
      simp only [Graph.addNode, hget1, hset1]
    simp [h1, h2]

/-- C8 witness: adding "A" twice to the loop graph. -/
theorem addNode_name_idempotent_witness :
    loopGraph.WF ∧
    (((loopGraph.addNode (NodeSpec.name "A")).1.addNode (NodeSpec.name "A")).2 =
      (loopGraph.addNode (NodeSpec.name "A")).2 ∧
    ((loopGraph.addNode (NodeSpec.name "A")).1.addNode (NodeSpec.name "A")).1 =
      (loopGraph.addNode (NodeSpec.name "A")).1) :=
  ⟨by decide, addNode_name_idempotent loopGraph "A" (by decide)⟩

/-- C10: addNode with a Node object whose name collides with a different
registered node silently replaces the mapping without raising: the call
returns the new object, getNode on that name then yields the new object,
and the old node is no longer among the dict's values, so no lookup
retrieves it. -/
theorem addNode_object_replaces_mapping (g : Graph) (old nw : Node)
    (hwf : g.WF) (hold : g.getNode old.name = some old)
    (hname : nw.name = old.name) (hne : nw ≠ old) :
    (g.addNode (NodeSpec.node nw)).2 = nw ∧
    (g.addNode (NodeSpec.node nw)).1.getNode nw.name = some nw ∧
    old ∉ (g.addNode (NodeSpec.node nw)).1.nodes.map Prod.snd := by
  obtain ⟨hkeys, hcoh, harcs⟩ := hwf
  refine ⟨rfl, ?_, ?_⟩
  · show dictGet (dictSet g.nodes nw.name nw) nw.name = some nw
    exact dictGet_dictSet_self g.nodes nw.name nw
  · intro hmm
    rcases List.mem_map.1 hmm with ⟨p, hp, hps⟩
    have hany : g.nodes.any (fun q => q.1 == nw.name) = true := by
      rw [hname]; exact dictGet_some_any hold
    have hp2 : p ∈ dictSet g.nodes nw.name nw := hp
    unfold dictSet at hp2
    rw [if_pos hany] at hp2
    rcases List.mem_map.1 hp2 with ⟨q, hq, hqe⟩
    by_cases hqk : q.1 = nw.name
    · rw [if_pos (by simp [hqk])] at hqe
      rw [← hqe] at hps
      exact hne (by simpa using hps)
    · rw [if_neg (by simp [hqk])] at hqe
      rw [← hqe] at hps
      exact hqk (by rw [hcoh q hq, hps, ← hname])

/-- C10 witness: registering a second node object named "A" in the loop
graph. -/
theorem addNode_object_replaces_mapping_witness :
    loopGraph.WF ∧ loopGraph.getNode nA.name = some nA ∧
    (Node.mk 9 "A").name = nA.name ∧ (Node.mk 9 "A") ≠ nA ∧
    ((loopGraph.addNode (NodeSpec.node ⟨9, "A"⟩)).2 = ⟨9, "A"⟩ ∧
     (loopGraph.addNode (NodeSpec.node ⟨9, "A"⟩)).1.getNode (Node.mk 9 "A").name =
       some ⟨9, "A"⟩ ∧
     nA ∉ (loopGraph.addNode (NodeSpec.node ⟨9, "A"⟩)).1.nodes.map Prod.snd) :=
  ⟨by decide, by decide, rfl, by decide,
   addNode_object_replaces_mapping loopGraph nA ⟨9, "A"⟩ (by decide) (by decide)
     rfl (by decide)⟩

/-- C9: comparing two distinct Node objects that carry the same name raises
KeyError (modelled by `none`): the less-than comparison fails rather than
returning an ordering. -/
theorem node_compare_duplicate_name_raises (a b : Node) (hne : a ≠ b)
    (hname : a.name = b.name) : a.pyLt b = none := by
  unfold Node.pyLt
  rw [if_neg hne, hname, strLt_irrefl]
  simp

/-- C9 witness: two distinct nodes both named "X". -/
theorem node_compare_duplicate_name_raises_witness :
    (Node.mk 0 "X") ≠ (Node.mk 1 "X") ∧ Node.pyLt ⟨0, "X"⟩ ⟨1, "X"⟩ = none :=
  ⟨by decide, node_compare_duplicate_name_raises ⟨0, "X"⟩ ⟨1, "X"⟩ (by decide) rfl⟩

end Traversal
